import Mathlib

/-!
Verification of the dataset-reconciliation pipeline in
`src/notebooks/00-etl.ipynb` (column normalisation, fuzzy variable
matching, metadata assembly, dataset merging, chunked partitioning).

Rows and tables are embedded as Lean lists; machine strings are kept as
`String` where only equality matters, and as lists of Unicode codepoints
(`List Nat`) where character-level transformations are performed.
-/

namespace Etl

section Defs

variable {α : Type*} {K A B : Type*}

/-- The number of output chunks, from the partitioning cell of the notebook:
`n_chunks = len(ss) // chunk_size + 1` (Python `//` is floor division,
embedded as `Nat` division). -/
def n_chunks (len chunk_size : Nat) : Nat := len / chunk_size + 1

/-- One chunk, from `chunk = ss.iloc[i * chunk_size : (i + 1) * chunk_size]`:
the slice of `rows` from index `i * chunk_size` (inclusive) to
`(i + 1) * chunk_size` (exclusive). -/
def chunk (rows : List α) (chunk_size i : Nat) : List α :=
  (rows.drop (i * chunk_size)).take chunk_size

/-- The partitioner: the notebook's loop `for i in range(n_chunks)` emits the
chunks in index order (chunk `i` is written as partition number `i + 1`). -/
def partition (rows : List α) (chunk_size : Nat) : List (List α) :=
  (List.range (n_chunks rows.length chunk_size)).map (chunk rows chunk_size)

/-- Left merge, embedding `primary.merge(lookup, on=key, how="left")` as called
in the notebook (no `validate=` argument is passed, so pandas performs no
duplicate-key check).  Each primary row is kept in order; a row with no
key match in `lookup` is emitted once with a null payload; a row with
matches is emitted once per matching lookup row, in lookup order. -/
def leftMerge [DecidableEq K] : List (K × A) → List (K × B) → List (K × A × Option B)
  | [], _ => []
  | p :: ps, lookup =>
    (if (lookup.filter (fun l => decide (l.1 = p.1))).isEmpty then
      [(p.1, p.2, none)]
    else
      (lookup.filter (fun l => decide (l.1 = p.1))).map (fun l => (p.1, p.2, some l.2)))
      ++ leftMerge ps lookup

/-- The symmetric difference of the two yearly column sets, from the assert
cell: `set(medsat_2019.columns) ^ set(medsat_2020.columns)`. -/
def schemaSymmDiff (cols2019 cols2020 : List String) : Finset String :=
  (cols2019.toFinset \ cols2020.toFinset) ∪ (cols2020.toFinset \ cols2019.toFinset)

/-- The medsat transform stage: the schema assert
(`assert len(set(medsat_2019.columns) ^ set(medsat_2020.columns)) == 0`)
runs first and aborts the stage, otherwise the two yearly tables are
concatenated (`pd.concat([medsat_2019, medsat_2020])`) and left-merged with
the region lookup (`.merge(lsoa_to_region, on="LSOA21CD", how="left")`).
The subsequent sort and geometry repair do not affect the claims below and
are elided. -/
def medsatTransform [DecidableEq K] (cols2019 cols2020 : List String)
    (rows2019 rows2020 : List (K × A)) (lookup : List (K × B)) :
    Except String (List (K × A × Option B)) :=
  if (schemaSymmDiff cols2019 cols2020).card = 0 then
    Except.ok (leftMerge (rows2019 ++ rows2020) lookup)
  else
    Except.error "SchemaMismatch"

/-- The reconciliation gap report, from the gap-check cell:
`set(medsat.columns) ^ set(variables["medsat_name"])` — the symmetric
difference between the merged dataset's columns and the catalogue's
resolved names. -/
def gapReport (datasetCols resolvedNames : Finset String) : Finset String :=
  (datasetCols \ resolvedNames) ∪ (resolvedNames \ datasetCols)

/-- Worker for `ffill`: `acc` is the most recent non-null value seen so far
(initially null). -/
def ffillGo (acc : Option α) : List (Option α) → List (Option α)
  | [] => []
  | none :: t => acc :: ffillGo acc t
  | some v :: t => some v :: ffillGo (some v) t

/-- Forward fill, embedding pandas `Series.ffill()` as used on the
`more_info`, `year` and `link_to_data_source` metadata columns: every null
cell takes the nearest preceding non-null value; leading nulls (no
preceding non-null value) are left null. -/
def ffill (col : List (Option α)) : List (Option α) := ffillGo none col

/-- Specification-side description of a forward-filled cell: the last
non-null value of the prefix, falling back to `acc` when the prefix has
none. -/
def lastFilled (acc : Option α) (col : List (Option α)) : Option α :=
  col.foldl (fun a v => match v with | some x => some x | none => a) acc

/-- ASCII whitespace codepoints (tab, LF, VT, FF, CR, space), the characters
matched by the whitespace class of the normalisation rules. -/
def isWsCode (n : Nat) : Bool :=
  decide (n = 9 ∨ n = 10 ∨ n = 11 ∨ n = 12 ∨ n = 13 ∨ n = 32)

/-- Worker for `collapseWhitespace`; `prevWs` records whether the previous
character was whitespace (so a run emits a single space, codepoint 32). -/
def collapseGo : Bool → List Nat → List Nat
  | _, [] => []
  | prevWs, c :: t =>
    if isWsCode c then
      if prevWs then collapseGo true t else 32 :: collapseGo true t
    else
      c :: collapseGo false t

/-- Modelled from the spec: the composite column normaliser (`clean_columns`
is imported from `utils`, which is not part of the sources) — rule (1):
collapse any run of whitespace characters to a single space. -/
def collapseWhitespace (l : List Nat) : List Nat := collapseGo false l

/-- Rule (2): trim leading and trailing whitespace. -/
def trimEnds (l : List Nat) : List Nat :=
  (((l.dropWhile isWsCode).reverse).dropWhile isWsCode).reverse

/-- ASCII lower-casing of a single codepoint (A–Z map to a–z). -/
def lowerCode (n : Nat) : Nat := if 65 ≤ n ∧ n ≤ 90 then n + 32 else n

/-- Rule (3): lower-case. -/
def lowerAll (l : List Nat) : List Nat := l.map lowerCode

/-- Rule (4): replace spaces (codepoint 32) with underscores (codepoint 95). -/
def spacesToUnderscores (l : List Nat) : List Nat :=
  l.map (fun n => if n = 32 then 95 else n)

/-- Rule (5): strip parenthesis characters (codepoints 40 and 41). -/
def stripParens (l : List Nat) : List Nat :=
  l.filter (fun n => decide (n ≠ 40 ∧ n ≠ 41))

/-- Modelled from the spec: the Column Normalizer contract, rules (1)–(5)
applied in order, over codepoint lists. -/
def normalize (l : List Nat) : List Nat :=
  stripParens (spacesToUnderscores (lowerAll (trimEnds (collapseWhitespace l))))

/-- The codepoints of a string literal, for concrete normalisation inputs. -/
def strCodes (s : String) : List Nat := s.data.map Char.toNat

/-- The running best candidate of the fuzzy scoring pass: maximal score, ties
broken by lexicographically smaller candidate name. -/
def fuzzyBest (score : String → ℚ) (candidates : List String) : Option String :=
  candidates.foldl
    (fun acc c =>
      match acc with
      | none => some c
      | some b => if score b < score c ∨ (score c = score b ∧ c < b) then some c else some b)
    none

/-- Modelled from the spec: `find_best_match` is imported from `utils`, which
is not part of the sources.  Per the matcher contract, the manual override
table is consulted first and short-circuits the fuzzy pass; otherwise the
best-scoring candidate is returned unless its score falls below the
acceptance threshold. -/
def find_best_match (overrides : String → Option String) (score : String → String → ℚ)
    (threshold : ℚ) (name : String) (candidates : List String) : Option String :=
  match overrides name with
  | some forced => some forced
  | none =>
    match fuzzyBest (score name) candidates with
    | some best => if threshold ≤ score name best then some best else none
    | none => none

/-- A row of a metadata sheet in the auxiliary category: `name`, `meaning`,
and the resolved dataset column `medsat_name`. -/
structure VarRecord where
  name : String
  meaning : String
  medsat_name : String
deriving DecidableEq, Repr

/-- The record written over row 0 of the auxiliary sheet:
`auxiliary.loc[0] = {"name": "LSOA21CD", "meaning": "LSOA code",
"medsat_name": "LSOA21CD"}`. -/
def lsoaRecord : VarRecord := ⟨"LSOA21CD", "LSOA code", "LSOA21CD"⟩

/-- First appended record: region code. -/
def rgn22cdRecord : VarRecord := ⟨"RGN22CD", "Region code", "RGN22CD"⟩

/-- Second appended record: region name. -/
def rgn22nmRecord : VarRecord := ⟨"RGN22NM", "Region name", "RGN22NM"⟩

/-- Third appended record: year. -/
def yearRecord : VarRecord := ⟨"year", "year of medsat data", "year"⟩

/-- `df.loc[0] = row` on a default-indexed frame: replaces the first row when
one exists, appends it when the frame is empty. -/
def setFirst : List VarRecord → VarRecord → List VarRecord
  | [], r => [r]
  | _ :: t, r => r :: t

/-- Assembly of the auxiliary category, from the auxiliary cell of the
notebook: `medsat_name` is copied from `name` for each parsed sheet row,
row 0 is unconditionally overwritten with the LSOA21CD record, and the
region-code, region-name and year records are appended
(`pd.concat([auxiliary, new_fields])`). -/
def auxAssemble (sheet : List (String × String)) : List VarRecord :=
  setFirst (sheet.map (fun row => VarRecord.mk row.1 row.2 row.1)) lsoaRecord
    ++ [rgn22cdRecord, rgn22nmRecord, yearRecord]

end Defs

section PartitionerProofs

variable {α : Type*}

/-- Concatenating `n` successive `k`-sized slices recovers any list of length
at most `n * k`. -/
theorem chunksJoin (k : Nat) :
    ∀ (n : Nat) (rows : List α), rows.length ≤ n * k →
      ((List.range n).map (fun i => (rows.drop (i * k)).take k)).flatten = rows := by
  intro n
  induction n with
  | zero =>
    intro rows h
    simp only [Nat.zero_mul, Nat.le_zero, List.length_eq_zero] at h
    simp [h]
  | succ n ih =>
    intro rows h
    rw [List.range_succ_eq_map, List.map_cons, List.map_map, List.flatten_cons]
    have hcongr : ∀ i ∈ List.range n,
        ((fun i => (rows.drop (i * k)).take k) ∘ Nat.succ) i
          = (fun i => (((rows.drop k).drop (i * k)).take k)) i := by
      intro i _
      simp only [Function.comp_apply]
      rw [List.drop_drop]
      have hm : Nat.succ i * k = k + i * k := by rw [Nat.succ_mul]; ring
      rw [hm]
    rw [List.map_congr_left hcongr]
    have hlen : (rows.drop k).length ≤ n * k := by
      rw [List.length_drop]
      have : (n + 1) * k = n * k + k := by ring
      omega
    rw [ih (rows.drop k) hlen]
    simp

/-- Claim C2: for every row sequence and every positive chunk size, the
chunks emitted by the partitioning loop, concatenated in numeric order,
reproduce the input row sequence exactly. -/
theorem partition_join (rows : List α) (k : Nat) (hk : 0 < k) :
    (partition rows k).flatten = rows := by
  have hle : rows.length ≤ n_chunks rows.length k * k := by
    have hdm := Nat.div_add_mod rows.length k
    have hlt := Nat.mod_lt rows.length hk
    have hexp : n_chunks rows.length k * k = rows.length / k * k + k := by
      simp [n_chunks]; ring
    have hcomm : rows.length / k * k = k * (rows.length / k) := Nat.mul_comm _ _
    omega
  exact chunksJoin k (n_chunks rows.length k) rows hle

/-- Witness for claim C2 at five rows and chunk size two. -/
theorem partition_join_witness :
    0 < 2 ∧ (partition [10, 20, 30, 40, 50] 2).flatten = [10, 20, 30, 40, 50] :=
  ⟨by decide, partition_join [10, 20, 30, 40, 50] 2 (by decide)⟩

/-- Claim C1, counterexample: six rows with chunk size three yield three
partitions of sizes [3, 3, 0] — one more than the ceil(6 / 3) = 2
partitions the claim predicts (the last one empty). -/
theorem partition_ceil_counterexample :
    (partition (List.range 6) 3).map List.length = [3, 3, 0] ∧
    (partition (List.range 6) 3).length ≠ (6 + 3 - 1) / 3 := by decide

/-- Claim C1 as amended: for every row sequence and positive chunk size `k`,
the partitioner yields `len / k + 1` (floor division) contiguous
partitions: the first `len / k` have exactly `k` rows, the final partition
has `len % k` rows (empty when `k` divides `len`), and every partition has
at most `k` rows. -/
theorem partition_count_and_sizes (rows : List α) (k : Nat) (hk : 0 < k) :
    (partition rows k).length = rows.length / k + 1 ∧
    (partition rows k).map List.length =
      (List.range (rows.length / k)).map (fun _ => k) ++ [rows.length % k] ∧
    ∀ c ∈ partition rows k, c.length ≤ k := by
  refine ⟨by simp [partition, n_chunks], ?_, ?_⟩
  · rw [partition, n_chunks, List.range_succ, List.map_append, List.map_append, List.map_map]
    have hfirst : ∀ i ∈ List.range (rows.length / k),
        (List.length ∘ chunk rows k) i = (fun _ => k) i := by
      intro i hi
      rw [List.mem_range] at hi
      have hstep : (i + 1) * k ≤ rows.length / k * k :=
        Nat.mul_le_mul_right k hi
      have hdiv : rows.length / k * k ≤ rows.length := Nat.div_mul_le_self _ _
      have hik : (i + 1) * k = i * k + k := by ring
      simp only [Function.comp_apply, chunk, List.length_take, List.length_drop]
      omega
    rw [List.map_congr_left hfirst]
    have hlast : (chunk rows k (rows.length / k)).length = rows.length % k := by
      have hdm := Nat.div_add_mod rows.length k
      have hlt := Nat.mod_lt rows.length hk
      have hcomm : rows.length / k * k = k * (rows.length / k) := Nat.mul_comm _ _
      simp only [chunk, List.length_take, List.length_drop]
      omega
    simp [hlast]
  · intro c hc
    rw [partition, List.mem_map] at hc
    obtain ⟨i, _, rfl⟩ := hc
    simp only [chunk, List.length_take]
    exact Nat.min_le_left _ _

/-- Witness for claim C1 as amended: 13,000 rows with chunk size 6,000 yield
three partitions of sizes [6000, 6000, 1000]. -/
theorem partition_count_and_sizes_witness :
    (partition (List.range 13000) 6000).length = 3 ∧
    (partition (List.range 13000) 6000).map List.length = [6000, 6000, 1000] := by
  have h := partition_count_and_sizes (List.range 13000) 6000 (by norm_num)
  refine ⟨?_, ?_⟩
  · rw [h.1]
    simp
  · rw [h.2.1]
    simp [List.length_range]

end PartitionerProofs

section MergeProofs

variable {K A B : Type*} [DecidableEq K]

/-- Unfolding of `leftMerge` on a nonempty primary table. -/
theorem leftMerge_cons (p : K × A) (ps : List (K × A)) (lookup : List (K × B)) :
    leftMerge (p :: ps) lookup =
      (if (lookup.filter (fun l => decide (l.1 = p.1))).isEmpty then
        [(p.1, p.2, none)]
      else
        (lookup.filter (fun l => decide (l.1 = p.1))).map (fun l => (p.1, p.2, some l.2)))
        ++ leftMerge ps lookup := rfl

/-- With no duplicate values of the join key on the lookup side, at most one
lookup row matches any key. -/
theorem filter_key_length_le_one (lookup : List (K × B))
    (h : (lookup.map Prod.fst).Nodup) (k : K) :
    (lookup.filter (fun l => decide (l.1 = k))).length ≤ 1 := by
  induction lookup with
  | nil => simp
  | cons m t ih =>
    rw [List.map_cons, List.nodup_cons] at h
    by_cases hm : m.1 = k
    · have hnil : t.filter (fun l => decide (l.1 = k)) = [] := by
        rw [List.filter_eq_nil_iff]
        intro x hx
        simp only [decide_eq_true_eq]
        intro hxk
        exact h.1 (List.mem_map.mpr ⟨x, hx, by rw [hxk, hm]⟩)
      simp [List.filter_cons, hm, hnil]
    · have hskip : (m :: t).filter (fun l => decide (l.1 = k))
          = t.filter (fun l => decide (l.1 = k)) := by
        simp [List.filter_cons, hm]
      rw [hskip]
      exact ih h.2

/-- Claim C3: a left merge against a lookup table with no duplicate join-key
values produces exactly one output row per primary row, in the primary
table's original order (projecting each output row back to its primary
part recovers the primary table), and the lookup payload is null exactly
on the rows whose key has no match in the lookup table. -/
theorem leftMerge_left_nodup (primary : List (K × A)) (lookup : List (K × B))
    (hnd : (lookup.map Prod.fst).Nodup) :
    (leftMerge primary lookup).length = primary.length ∧
    (leftMerge primary lookup).map (fun r => (r.1, r.2.1)) = primary ∧
    ∀ r ∈ leftMerge primary lookup, r.1 ∉ lookup.map Prod.fst → r.2.2 = none := by
  induction primary with
  | nil =>
    refine ⟨rfl, rfl, ?_⟩
    intro r hr
    simp [leftMerge] at hr
  | cons p ps ih =>
    obtain ⟨ihlen, ihmap, ihnull⟩ := ih
    have hle := filter_key_length_le_one lookup hnd p.1
    rcases hms : lookup.filter (fun l => decide (l.1 = p.1)) with _ | ⟨m, tms⟩
    · rw [leftMerge_cons, hms]
      refine ⟨by simp [ihlen], by simp [ihmap], ?_⟩
      intro r hr hnotin
      simp only [List.isEmpty_nil, if_true, List.singleton_append, List.mem_cons] at hr
      rcases hr with rfl | hr
      · rfl
      · exact ihnull r hr hnotin
    · have htms : tms = [] := by
        have hlen2 : (m :: tms).length ≤ 1 := hms ▸ hle
        simp only [List.length_cons] at hlen2
        exact List.length_eq_zero.mp (by omega)
      subst htms
      have hm_mem : m ∈ lookup ∧ m.1 = p.1 := by
        have hmem : m ∈ lookup.filter (fun l => decide (l.1 = p.1)) := by
          rw [hms]
          exact List.mem_cons_self m []
        rw [List.mem_filter] at hmem
        exact ⟨hmem.1, of_decide_eq_true hmem.2⟩
      rw [leftMerge_cons, hms]
      refine ⟨by simp [ihlen], by simp [ihmap], ?_⟩
      intro r hr hnotin
      simp only [List.isEmpty_cons, Bool.false_eq_true, if_false, List.map_cons, List.map_nil,
        List.singleton_append, List.mem_cons] at hr
      rcases hr with rfl | hr
      · exact absurd (List.mem_map.mpr ⟨m, hm_mem.1, hm_mem.2⟩) hnotin
      · exact ihnull r hr hnotin

/-- Witness for claim C3: three primary rows, a two-row lookup with distinct
keys, the third primary key unmatched. -/
theorem leftMerge_left_nodup_witness :
    (([((1 : Nat), (100 : Nat)), (2, 200)].map Prod.fst).Nodup) ∧
    (leftMerge [((1 : Nat), (10 : Nat)), (2, 20), (3, 30)]
      [((1 : Nat), (100 : Nat)), (2, 200)]).length = 3 ∧
    (leftMerge [((1 : Nat), (10 : Nat)), (2, 20), (3, 30)]
      [((1 : Nat), (100 : Nat)), (2, 200)]).map (fun r => (r.1, r.2.1))
      = [(1, 10), (2, 20), (3, 30)] :=
  ⟨by decide,
   (leftMerge_left_nodup [(1, 10), (2, 20), (3, 30)] [(1, 100), (2, 200)] (by decide)).1,
   (leftMerge_left_nodup [(1, 10), (2, 20), (3, 30)] [(1, 100), (2, 200)] (by decide)).2.1⟩

/-- Claim C4, counterexample: a lookup table with a duplicated join key does
not make the merge fail — at key 1, duplicated in the lookup, the merge
still produces output (two rows for the single primary row) rather than
raising and producing none. -/
theorem leftMerge_duplicate_counterexample :
    leftMerge [((1 : Nat), (10 : Nat))] [((1 : Nat), (100 : Nat)), (1, 200)]
      = [(1, 10, some 100), (1, 10, some 200)] := by decide

/-- Claim C4 as amended: the merge performs no duplicate-key detection — every
primary row is emitted max(number of lookup matches, 1) times, so a
duplicated matched lookup key silently duplicates primary rows instead of
raising `DuplicateJoinKey`. -/
theorem leftMerge_duplicate_rowcount (primary : List (K × A)) (lookup : List (K × B)) :
    (leftMerge primary lookup).length =
      (primary.map
        (fun p => max (lookup.filter (fun l => decide (l.1 = p.1))).length 1)).sum := by
  induction primary with
  | nil => rfl
  | cons p ps ih =>
    rw [leftMerge_cons, List.length_append, ih, List.map_cons, List.sum_cons]
    congr 1
    rcases hms : lookup.filter (fun l => decide (l.1 = p.1)) with _ | ⟨m, tms⟩
    · rw [hms]
      simp
    · rw [hms]
      simp only [List.isEmpty_cons, Bool.false_eq_true, if_false, List.length_map,
        List.length_cons]
      omega

end MergeProofs

section SchemaAndGapProofs

variable {K A B : Type*} [DecidableEq K]

/-- The assert's condition holds exactly when the two yearly column sets are
equal. -/
theorem schemaSymmDiff_card_zero_iff (cols2019 cols2020 : List String) :
    (schemaSymmDiff cols2019 cols2020).card = 0 ↔
      cols2019.toFinset = cols2020.toFinset := by
  rw [Finset.card_eq_zero, schemaSymmDiff, Finset.union_eq_empty,
    Finset.sdiff_eq_empty_iff_subset, Finset.sdiff_eq_empty_iff_subset]
  constructor
  · rintro ⟨h1, h2⟩
    exact Finset.Subset.antisymm h1 h2
  · intro heq
    exact ⟨heq.le, heq.ge⟩

/-- Claim C6: if the two yearly point datasets differ in their column sets,
the transform stage fails with the SchemaMismatch error: its result is the
error value, not a merged table, so no merge is performed. -/
theorem schemaMismatch_aborts (cols2019 cols2020 : List String)
    (rows2019 rows2020 : List (K × A)) (lookup : List (K × B))
    (h : cols2019.toFinset ≠ cols2020.toFinset) :
    medsatTransform cols2019 cols2020 rows2019 rows2020 lookup
      = Except.error "SchemaMismatch" := by
  rw [medsatTransform, if_neg]
  intro hcard
  exact h ((schemaSymmDiff_card_zero_iff _ _).mp hcard)

/-- Witness for claim C6: a 2020 schema with one extra column aborts the
stage. -/
theorem schemaMismatch_aborts_witness :
    (["LSOA21CD"] : List String).toFinset ≠ (["LSOA21CD", "extra"] : List String).toFinset ∧
    medsatTransform ["LSOA21CD"] ["LSOA21CD", "extra"] ([] : List (Nat × Nat))
      ([] : List (Nat × Nat)) ([] : List (Nat × Nat)) = Except.error "SchemaMismatch" :=
  ⟨by decide, schemaMismatch_aborts _ _ _ _ _ (by decide)⟩

/-- Claim C7, counterexample: the gap report of the notebook compares the
full column set, key columns included.  With dataset columns
{LSOA21CD, x}, key column LSOA21CD and a catalogue resolving exactly the
non-key column x, every non-key column is resolved and every record
resolves, yet the report is nonempty (it contains the key column). -/
theorem gapReport_nonkey_counterexample :
    (∀ c ∈ ({"LSOA21CD", "x"} : Finset String), c ∉ ({"LSOA21CD"} : Finset String) →
      c ∈ ({"x"} : Finset String)) ∧
    (∀ c ∈ ({"x"} : Finset String), c ∈ ({"LSOA21CD", "x"} : Finset String)) ∧
    gapReport {"LSOA21CD", "x"} {"x"} ≠ ∅ := by decide

/-- Claim C7 as amended: if every column of the merged dataset — key columns
included — has a corresponding resolved record in the catalogue, and every
record of the catalogue resolves to a dataset column, then the gap report
is empty. -/
theorem gapReport_empty_of_subsets (datasetCols resolvedNames : Finset String)
    (h1 : ∀ c ∈ datasetCols, c ∈ resolvedNames)
    (h2 : ∀ c ∈ resolvedNames, c ∈ datasetCols) :
    gapReport datasetCols resolvedNames = ∅ := by
  rw [gapReport, Finset.union_eq_empty, Finset.sdiff_eq_empty_iff_subset,
    Finset.sdiff_eq_empty_iff_subset]
  exact ⟨fun c hc => h1 c hc, fun c hc => h2 c hc⟩

/-- Witness for claim C7 as amended. -/
theorem gapReport_empty_of_subsets_witness :
    (∀ c ∈ ({"LSOA21CD", "x"} : Finset String), c ∈ ({"LSOA21CD", "x"} : Finset String)) ∧
    gapReport {"LSOA21CD", "x"} {"LSOA21CD", "x"} = ∅ :=
  ⟨by decide, gapReport_empty_of_subsets _ _ (by decide) (by decide)⟩

end SchemaAndGapProofs

section FfillProofs

variable {α : Type*}

/-- Forward fill preserves the column's length. -/
theorem ffillGo_length (acc : Option α) (col : List (Option α)) :
    (ffillGo acc col).length = col.length := by
  induction col generalizing acc with
  | nil => rfl
  | cons v t ih => cases v <;> simp [ffillGo, ih]

/-- A forward-filled cell holds the last non-null value of its prefix,
falling back to the seed `acc`. -/
theorem ffillGo_getD (col : List (Option α)) :
    ∀ (acc : Option α) (i : Nat), i < col.length →
      (ffillGo acc col).getD i none = lastFilled acc (col.take (i + 1)) := by
  induction col with
  | nil =>
    intro acc i h
    simp at h
  | cons v t ih =>
    intro acc i h
    cases v with
    | none =>
      cases i with
      | zero => simp [ffillGo, lastFilled]
      | succ j =>
        have hj : j < t.length := by simpa using h
        show (ffillGo acc t).getD j none = lastFilled acc (none :: t.take (j + 1))
        rw [ih acc j hj]
        rfl
    | some x =>
      cases i with
      | zero => simp [ffillGo, lastFilled]
      | succ j =>
        have hj : j < t.length := by simpa using h
        show (ffillGo (some x) t).getD j none = lastFilled acc (some x :: t.take (j + 1))
        rw [ih (some x) j hj]
        rfl

/-- Claim C8, counterexample: a leading null with no preceding non-null value
is not an error — the fill completes normally and simply leaves the cell
null. -/
theorem ffill_leading_null_counterexample :
    ffill [none, some (1 : Nat)] = [none, some 1] := by decide

/-- Claim C8 as amended: forward fill keeps the sheet's length, every cell
takes the nearest preceding (or own) non-null value of its prefix, and a
cell whose prefix holds no non-null value is left null (seed `none`)
rather than being an error. -/
theorem ffill_fills (col : List (Option α)) :
    (ffill col).length = col.length ∧
    ∀ i, i < col.length → (ffill col).getD i none = lastFilled none (col.take (i + 1)) :=
  ⟨ffillGo_length none col, fun i h => ffillGo_getD col none i h⟩

/-- Witness for claim C8 as amended: in [some 1, none, none, some 2, none]
cell 2 is filled with 1, the nearest preceding non-null value. -/
theorem ffill_fills_witness :
    2 < ([some (1 : Nat), none, none, some 2, none] : List (Option Nat)).length ∧
    (ffill [some (1 : Nat), none, none, some 2, none]).getD 2 none
      = lastFilled none ([some (1 : Nat), none, none, some 2, none].take 3) ∧
    lastFilled none ([some (1 : Nat), none, none, some 2, none].take 3) = some 1 :=
  ⟨by decide, (ffill_fills [some 1, none, none, some 2, none]).2 2 (by decide), by decide⟩

end FfillProofs

section MatcherProofs

/-- Claim C9: when the override table has an entry for the declared name, the
matcher returns the forced column verbatim, and its result is independent
of the scoring function and the threshold — the fuzzy scoring pass is
short-circuited. -/
theorem find_best_match_override (overrides : String → Option String)
    (score : String → String → ℚ) (threshold : ℚ) (name : String)
    (candidates : List String) (forced : String)
    (h : overrides name = some forced) :
    find_best_match overrides score threshold name candidates = some forced ∧
    ∀ (score' : String → String → ℚ) (threshold' : ℚ),
      find_best_match overrides score threshold name candidates
        = find_best_match overrides score' threshold' name candidates := by
  constructor
  · unfold find_best_match
    rw [h]
  · intro score' threshold'
    unfold find_best_match
    rw [h]

/-- Witness for claim C9: an override forcing a column wins even though the
scoring function ranks every candidate identically (and the forced column
is not among the candidates). -/
theorem find_best_match_override_witness :
    (fun n => if n = "household income" then some "c_household_income" else none)
        "household income" = some "c_household_income" ∧
    find_best_match
      (fun n => if n = "household income" then some "c_household_income" else none)
      (fun _ _ => (0 : ℚ)) 1 "household income" ["c_other_column"]
      = some "c_household_income" :=
  ⟨by decide, (find_best_match_override _ _ _ _ _ _ (by decide)).1⟩

end MatcherProofs

section AuxiliaryProofs

/-- Claim C10: whatever the parsed auxiliary sheet contains, the assembled
auxiliary category starts with the LSOA21CD record (row 0 is overwritten,
or created when the sheet is empty), ends with the three appended
region-code, region-name and year records, and therefore contains records
whose resolved name is LSOA21CD, RGN22CD, RGN22NM and year. -/
theorem auxiliary_key_records (sheet : List (String × String)) :
    (auxAssemble sheet).head? = some lsoaRecord ∧
    (auxAssemble sheet).drop ((auxAssemble sheet).length - 3)
      = [rgn22cdRecord, rgn22nmRecord, yearRecord] ∧
    "LSOA21CD" ∈ (auxAssemble sheet).map VarRecord.medsat_name ∧
    "RGN22CD" ∈ (auxAssemble sheet).map VarRecord.medsat_name ∧
    "RGN22NM" ∈ (auxAssemble sheet).map VarRecord.medsat_name ∧
    "year" ∈ (auxAssemble sheet).map VarRecord.medsat_name := by
  cases sheet with
  | nil => decide
  | cons s ss =>
    have hform : auxAssemble (s :: ss)
        = (lsoaRecord :: ss.map (fun row => VarRecord.mk row.1 row.2 row.1))
          ++ [rgn22cdRecord, rgn22nmRecord, yearRecord] := by
      simp [auxAssemble, setFirst]
    rw [hform]
    refine ⟨rfl, ?_, ?_, ?_, ?_, ?_⟩
    · have hlen : ((lsoaRecord :: ss.map (fun row => VarRecord.mk row.1 row.2 row.1))
          ++ [rgn22cdRecord, rgn22nmRecord, yearRecord]).length - 3
          = (lsoaRecord :: ss.map (fun row => VarRecord.mk row.1 row.2 row.1)).length := by
        simp
      rw [hlen, List.drop_left]
    · simp [lsoaRecord]
    · refine List.mem_map.mpr ⟨rgn22cdRecord, ?_, rfl⟩
      simp
    · refine List.mem_map.mpr ⟨rgn22nmRecord, ?_, rfl⟩
      simp
    · refine List.mem_map.mpr ⟨yearRecord, ?_, rfl⟩
      simp

end AuxiliaryProofs

section NormalizeProofs

/-- Any whitespace character surviving the collapse pass is the single
space. -/
theorem collapseGo_ws_mem (l : List Nat) :
    ∀ (b : Bool) (n : Nat), n ∈ collapseGo b l → isWsCode n = true → n = 32 := by
  induction l with
  | nil =>
    intro b n hn
    simp [collapseGo] at hn
  | cons c t ih =>
    intro b n hn hw
    by_cases hc : isWsCode c
    · rw [collapseGo, if_pos hc] at hn
      cases b with
      | true =>
        simp only [if_true] at hn
        exact ih true n hn hw
      | false =>
        simp only [Bool.false_eq_true, if_false] at hn
        rcases List.mem_cons.mp hn with rfl | hn
        · rfl
        · exact ih true n hn hw
    · rw [collapseGo, if_neg hc] at hn
      rcases List.mem_cons.mp hn with rfl | hn
      · exact absurd hw hc
      · exact ih false n hn hw

/-- The collapse pass is the identity on whitespace-free input. -/
theorem collapseGo_eq_self (l : List Nat) (h : ∀ n ∈ l, isWsCode n = false) :
    ∀ b, collapseGo b l = l := by
  induction l with
  | nil => intro b; rfl
  | cons c t ih =>
    intro b
    have hc : isWsCode c = false := h c (List.mem_cons_self c t)
    rw [collapseGo, if_neg (by simp [hc]),
      ih (fun n hn => h n (List.mem_cons_of_mem c hn)) false]

/-- `dropWhile` is the identity when no element satisfies the predicate. -/
theorem dropWhile_eq_self_of {α : Type*} (p : α → Bool) (l : List α)
    (h : ∀ a ∈ l, p a = false) : l.dropWhile p = l := by
  cases l with
  | nil => rfl
  | cons c t =>
    rw [List.dropWhile_cons, if_neg (by simp [h c (List.mem_cons_self c t)])]

/-- `map` is the identity when the function fixes every element. -/
theorem map_eq_self_of {α : Type*} (f : α → α) (l : List α)
    (h : ∀ a ∈ l, f a = a) : l.map f = l := by
  induction l with
  | nil => rfl
  | cons c t ih =>
    rw [List.map_cons, h c (List.mem_cons_self c t),
      ih (fun a ha => h a (List.mem_cons_of_mem c ha))]

/-- Character-level invariant of normalised output: no whitespace, no
parentheses, and lower-casing fixes every character. -/
theorem normalize_chars (l : List Nat) :
    ∀ n ∈ normalize l, isWsCode n = false ∧ n ≠ 40 ∧ n ≠ 41 ∧ lowerCode n = n := by
  intro n hn
  unfold normalize stripParens at hn
  rw [List.mem_filter] at hn
  obtain ⟨hn, hpar⟩ := hn
  have hpar' : n ≠ 40 ∧ n ≠ 41 := of_decide_eq_true hpar
  unfold spacesToUnderscores at hn
  rw [List.mem_map] at hn
  obtain ⟨m, hm, hnm⟩ := hn
  unfold lowerAll at hm
  rw [List.mem_map] at hm
  obtain ⟨q, hq, hmq⟩ := hm
  have hq' : q ∈ collapseWhitespace l := by
    unfold trimEnds at hq
    have h1 : q ∈ ((collapseWhitespace l).dropWhile isWsCode).reverse :=
      (List.dropWhile_sublist _).mem (List.mem_reverse.mp hq)
    exact (List.dropWhile_sublist _).mem (List.mem_reverse.mp h1)
  have hwq : isWsCode q = true → q = 32 := collapseGo_ws_mem l false q hq'
  have hkey : isWsCode (if lowerCode q = 32 then 95 else lowerCode q) = false ∧
      lowerCode (if lowerCode q = 32 then 95 else lowerCode q)
        = (if lowerCode q = 32 then 95 else lowerCode q) := by
    by_cases hws : isWsCode q = true
    · have hq32 : q = 32 := hwq hws
      subst hq32
      decide
    · have hq32 : q ≠ 32 := by
        intro hq32
        exact hws (by rw [hq32]; decide)
      by_cases hup : 65 ≤ q ∧ q ≤ 90
      · have hm97 : lowerCode q = q + 32 := by rw [lowerCode, if_pos hup]
        rw [hm97, if_neg (by omega)]
        constructor
        · simp only [isWsCode, decide_eq_false_iff_not]
          omega
        · rw [lowerCode, if_neg (by omega)]
      · have hmq' : lowerCode q = q := by rw [lowerCode, if_neg hup]
        rw [hmq', if_neg hq32, hmq']
        exact ⟨by simpa using hws, rfl⟩
  subst hnm hmq
  exact ⟨hkey.1, hpar'.1, hpar'.2, hkey.2⟩

/-- The normaliser is idempotent: its output is already fully normalised, so
every pass is the identity on it. -/
theorem normalize_idem (l : List Nat) : normalize (normalize l) = normalize l := by
  have hc := normalize_chars l
  have hws : ∀ n ∈ normalize l, isWsCode n = false := fun n hn => (hc n hn).1
  have h1 : collapseWhitespace (normalize l) = normalize l :=
    collapseGo_eq_self _ hws false
  have h2 : trimEnds (normalize l) = normalize l := by
    unfold trimEnds
    rw [dropWhile_eq_self_of _ _ hws,
      dropWhile_eq_self_of _ _ (fun n hn => hws n (List.mem_reverse.mp hn)),
      List.reverse_reverse]
  have h3 : lowerAll (normalize l) = normalize l :=
    map_eq_self_of _ _ (fun n hn => (hc n hn).2.2.2)
  have h4 : spacesToUnderscores (normalize l) = normalize l := by
    refine map_eq_self_of _ _ (fun n hn => ?_)
    have hn32 : n ≠ 32 := by
      intro h32
      have := hws n hn
      rw [h32] at this
      exact absurd this (by decide)
    rw [if_neg hn32]
  have h5 : stripParens (normalize l) = normalize l := by
    refine List.filter_eq_self.mpr (fun n hn => ?_)
    exact decide_eq_true ⟨(hc n hn).2.1, (hc n hn).2.2.1⟩
  calc normalize (normalize l)
      = stripParens (spacesToUnderscores (lowerAll (trimEnds
          (collapseWhitespace (normalize l))))) := rfl
    _ = normalize l := by rw [h1, h2, h3, h4, h5]

/-- Claim C5: the normaliser applies, in order, whitespace collapsing,
trimming, lower-casing, space-to-underscore replacement and parenthesis
stripping; it is idempotent on every input, and it maps
"Household  Income " to "household_income". -/
theorem normalize_contract :
    (∀ l : List Nat, normalize l
        = stripParens (spacesToUnderscores (lowerAll (trimEnds (collapseWhitespace l))))) ∧
    (∀ l : List Nat, normalize (normalize l) = normalize l) ∧
    normalize (strCodes "Household  Income ") = strCodes "household_income" :=
  ⟨fun _ => rfl, normalize_idem, by decide⟩

end NormalizeProofs

end Etl
